import Mathlib

/-!
Verification of the MikroTik security monitor pipeline (src/main.py).

The pipeline in `main()` is embedded shallowly:
* `LogEntry` models an entry returned by the RouterOS log resource; each of
  `time`, `message`, `topics` may be absent (`entry.get(...)` returns `None`).
* classification (main.py lines 74-83) becomes `failedLogins`;
* the ledger diff (line 88) becomes `diffNew`, the CSV append (line 92)
  becomes list concatenation, with `persistedAfterCrash` modelling the
  sequential in-place rewrite performed by `to_csv`;
* IP extraction (lines 42-45) becomes `extract_ip`, a faithful rendering of
  `re.search` with the pattern of four 1-3 digit groups framed by
  word-boundary anchors;
* brute-force grouping and flagging (lines 105-116) become `ipAttempts` and
  `bruteForceIps`; `pd.to_datetime(..., errors='coerce')` is an external
  parser and is passed in as `parse : String → Option Int` (timestamps in
  seconds), `NaT`/`None` becoming `none`;
* the run as a whole (lines 85-128) becomes `runPipeline`.
-/

/-- Entry fetched from the log source; Python's `entry.get(key)` yields
`None` when the key is absent, modelled by `Option`. -/
structure LogEntry where
  time : Option String
  message : Option String
  topics : Option String
deriving DecidableEq

/-- Row appended to `failed_logins` (main.py lines 78-83): the original
`time`/`message`/`topics` values plus the composite identity string. -/
structure FailureRecord where
  time : Option String
  message : Option String
  topics : Option String
  id : String
deriving DecidableEq

/-- Python string interpolation of a possibly-`None` value, as in
`f"{entry.get('time')}|{entry.get('message')}"`. -/
def pyStr : Option String → String
  | some s => s
  | none => "None"

/-- Tests whether the second list occurs at the head of the first-argument
position, i.e. `needle` is an initial segment of `l`. -/
def isSubListAt : List Char → List Char → Bool
  | [], _ => true
  | _ :: _, [] => false
  | a :: as, b :: bs => a == b && isSubListAt as bs

/-- Substring occurrence test on character lists, modelling Python's
`needle in hay`. -/
def containsSeq : List Char → List Char → Bool
  | [], needle => needle.isEmpty
  | c :: t, needle => isSubListAt needle (c :: t) || containsSeq t needle

/-- Substring test on strings (Python `in`). -/
def strContainsSub (hay needle : String) : Bool :=
  containsSeq hay.toList needle.toList

/-- Lower-casing, modelling `str.lower()` on the ASCII messages involved:
each character is lowered in place. -/
def lowerString (s : String) : String := String.mk (s.toList.map Char.toLower)

/-- Keyword list from main.py line 21. -/
def FAILURE_KEYWORDS : List String := ["login failure", "failed", "denied", "invalid"]

/-- Classification test of main.py line 76-77:
`any(keyword in entry.get("message", "").lower() for keyword in FAILURE_KEYWORDS)`. -/
def classifyFailure (e : LogEntry) : Bool :=
  FAILURE_KEYWORDS.any (fun kw => strContainsSub (lowerString (e.message.getD "")) kw)

/-- Record built for a classified entry (main.py lines 78-83). -/
def toRecord (e : LogEntry) : FailureRecord :=
  { time := e.time
    message := e.message
    topics := e.topics
    id := pyStr e.time ++ "|" ++ pyStr e.message }

/-- Loop of main.py lines 74-83 building `failed_logins`. -/
def failedLogins (entries : List LogEntry) : List FailureRecord :=
  (entries.filter classifyFailure).map toRecord

/-- Identity column of a ledger (`df['id']`). -/
def ledgerIds (l : List FailureRecord) : List String := l.map (fun r => r.id)

/-- Membership of an identity in a ledger, modelling `isin` on the id column. -/
def idMem (i : String) (l : List FailureRecord) : Bool :=
  l.any (fun r => decide (r.id = i))

/-- Ledger diff of main.py line 88:
`df[~df['id'].isin(existing_df.get('id', []))]`. -/
def diffNew (candidates ledger : List FailureRecord) : List FailureRecord :=
  candidates.filter (fun r => ! idMem r.id ledger)

/-- Word character in the sense of the regex metacharacter used on the ASCII
messages involved: a letter, a digit or an underscore. -/
def isWordChar (c : Char) : Bool := c.isAlphanum || c == '_'

/-- Word-boundary condition at a match start: the preceding character (if
any) is not a word character.  The pattern begins with a digit, so the
boundary holds exactly when the previous character is absent or non-word. -/
def boundaryBefore : Option Char → Bool
  | none => true
  | some c => ! isWordChar c

/-- Word-boundary condition at a match end: the following character (if any)
is not a word character. -/
def boundaryAfter : List Char → Bool
  | [] => true
  | c :: _ => ! isWordChar c

/-- Matches `[0-9]{1,3}` followed by a non-digit (or end): because the regex
group must be followed by a literal dot (or by a word boundary for the last
group), backtracking forces the group to consume the whole digit run, which
must have length 1 to 3. -/
def grabOctet (l : List Char) : Option (List Char × List Char) :=
  let ds := l.takeWhile Char.isDigit
  if 1 ≤ ds.length ∧ ds.length ≤ 3 then some (ds, l.dropWhile Char.isDigit) else none

/-- Matches a literal period. -/
def grabDot : List Char → Option (List Char)
  | [] => none
  | c :: rest => if c = '.' then some rest else none

/-- Match of the whole pattern anchored at the head of `l`, returning the
matched text (`match.group(0)`). -/
def matchQuadAt (l : List Char) : Option (List Char) :=
  match grabOctet l with
  | none => none
  | some (d1, r1) =>
    match grabDot r1 with
    | none => none
    | some r2 =>
      match grabOctet r2 with
      | none => none
      | some (d2, r3) =>
        match grabDot r3 with
        | none => none
        | some r4 =>
          match grabOctet r4 with
          | none => none
          | some (d3, r5) =>
            match grabDot r5 with
            | none => none
            | some r6 =>
              match grabOctet r6 with
              | none => none
              | some (d4, r7) =>
                if boundaryAfter r7 then
                  some (d1 ++ '.' :: (d2 ++ '.' :: (d3 ++ '.' :: d4)))
                else none

/-- Scan of `re.search`: try each start position from the left, tracking the
previous character for the leading word-boundary test. -/
def scanQuad : Option Char → List Char → Option (List Char)
  | _, [] => none
  | prev, c :: rest =>
    if boundaryBefore prev then
      match matchQuadAt (c :: rest) with
      | some m => some m
      | none => scanQuad (some c) rest
    else scanQuad (some c) rest

/-- Embeds `extract_ip` (main.py lines 42-45). -/
def extract_ip (message : String) : Option String :=
  (scanQuad none message.toList).map (fun l => String.mk l)

/-- The `ip` column of main.py line 105: `extract_ip` applied to the
message. -/
def recIp (r : FailureRecord) : Option String := r.message.bind extract_ip

/-- The `datetime` column of main.py line 106; the external
`pd.to_datetime(..., errors='coerce')` is the supplied `parse`, with `NaT`
modelled as `none` and a missing `time` parsing to `none`. -/
def recTime (parse : String → Option Int) (r : FailureRecord) : Option Int :=
  r.time.bind parse

/-- Row survival under `new_entries.dropna()` (main.py line 109): every
column of the row must be present.  The `id` column is always a string and
the `message` column is present on every classified row, but both are listed
for faithfulness to `dropna`, which inspects all columns. -/
def rowKept (parse : String → Option Int) (r : FailureRecord) : Bool :=
  r.time.isSome && r.message.isSome && r.topics.isSome &&
    (recIp r).isSome && (recTime parse r).isSome

/-- The `(ip, datetime)` pair read off a surviving row. -/
def rowIpTime (parse : String → Option Int) (r : FailureRecord) :
    Option (String × Int) :=
  match recIp r, recTime parse r with
  | some ip, some t => some (ip, t)
  | _, _ => none

/-- One step of `ip_attempts[row['ip']].append(row['datetime'])` on an
insertion-ordered association list (a Python `defaultdict` preserves
insertion order of keys). -/
def addAttempt : List (String × List Int) → String → Int → List (String × List Int)
  | [], ip, t => [(ip, [t])]
  | (k, ts) :: rest, ip, t =>
    if k = ip then (k, ts ++ [t]) :: rest else (k, ts) :: addAttempt rest ip t

/-- Grouping loop of main.py lines 108-110: iterate the rows surviving
`dropna()` in order, appending each row's timestamp to its IP's list.  On a
surviving row `rowIpTime` never fails, so the `filterMap` only converts the
row to its `(ip, datetime)` pair. -/
def ipAttempts (parse : String → Option Int) (rows : List FailureRecord) :
    List (String × List Int) :=
  ((rows.filter (rowKept parse)).filterMap (rowIpTime parse)).foldl
    (fun acc p => addAttempt acc p.1 p.2) []

/-- Python `max` on a nonempty list (groups are always nonempty; the `[]`
case is junk). -/
def listMax : List Int → Int
  | [] => 0
  | t :: ts => ts.foldl max t

/-- Python `min` on a nonempty list. -/
def listMin : List Int → Int
  | [] => 0
  | t :: ts => ts.foldl min t

/-- Threshold constant from main.py line 22. -/
def BRUTE_FORCE_THRESHOLD : Nat := 2

/-- Window constant (minutes) from main.py line 23. -/
def BRUTE_FORCE_WINDOW : Int := 5

/-- Flagging condition of main.py lines 114-115, timestamps in seconds so
`timedelta(minutes=BRUTE_FORCE_WINDOW)` is `60 * BRUTE_FORCE_WINDOW`. -/
def flaggedGroup (g : String × List Int) : Bool :=
  decide (BRUTE_FORCE_THRESHOLD ≤ g.2.length) &&
    decide (listMax g.2 - listMin g.2 ≤ 60 * BRUTE_FORCE_WINDOW)

/-- List comprehension of main.py lines 112-116. -/
def bruteForceIps (parse : String → Option Int) (rows : List FailureRecord) :
    List String :=
  ((ipAttempts parse rows).filter flaggedGroup).map (fun g => g.1)

/-- Observable outcome of one run: the diffed new entries, the persisted
ledger, the report artifact contents (the rendered rows) and the alert
artifact contents (the flagged IPs), `none` when the artifact is not
written. -/
structure RunOutput where
  newEntries : List FailureRecord
  ledgerAfter : List FailureRecord
  report : Option (List FailureRecord)
  alertIps : Option (List String)
deriving DecidableEq

/-- One full run (main.py lines 85-128) against a fetched batch and a loaded
ledger: diff, then - only when something is new - append, report, detect and
possibly alert. -/
def runPipeline (parse : String → Option Int) (entries : List LogEntry)
    (ledger : List FailureRecord) : RunOutput :=
  let candidates := failedLogins entries
  let newEntries := diffNew candidates ledger
  if newEntries.isEmpty then
    { newEntries := newEntries, ledgerAfter := ledger,
      report := none, alertIps := none }
  else
    let ips := bruteForceIps parse newEntries
    { newEntries := newEntries, ledgerAfter := ledger ++ newEntries,
      report := some newEntries,
      alertIps := if ips.isEmpty then none else some ips }

/-- Modelled write semantics of main.py line 92:
`pd.concat([existing_df, new_entries]).to_csv(LOG_CSV, index=False)` opens
the ledger file for writing (truncating it) and writes the concatenated
rows sequentially, so a run interrupted mid-write leaves on disk a prefix
`k` of the rewritten rows. -/
def persistedAfterCrash (oldRecords newRecords : List FailureRecord) (k : Nat) :
    List FailureRecord :=
  (oldRecords ++ newRecords).take k

/-! ### Specification-side definitions

These render the spec's wording (dotted-quad substrings, first-seen order)
independently of the extraction and grouping code, for comparison. -/

/-- Octet group in the spec's sense: one to three digits. -/
def octetGroup (g : List Char) : Bool :=
  decide (1 ≤ g.length) && decide (g.length ≤ 3) && g.all Char.isDigit

/-- Splits a character list at every period. -/
def splitDots : List Char → List (List Char)
  | [] => [[]]
  | c :: rest =>
    if c = '.' then [] :: splitDots rest
    else
      match splitDots rest with
      | [] => [[c]]
      | g :: gs => (c :: g) :: gs

/-- Joins groups with periods; inverse of `splitDots`. -/
def joinWithDot : List (List Char) → List Char
  | [] => []
  | [g] => g
  | g :: gs => g ++ '.' :: joinWithDot gs

/-- Dotted-quad pattern per the spec: four groups of one to three digits
separated by periods, no octet-range validation. -/
def isDottedQuad (l : List Char) : Bool :=
  (splitDots l).length == 4 && (splitDots l).all octetGroup

/-- Word-boundary condition to the left of a match: the character
immediately preceding the matched text (the last character of `pre`) is
absent or is not a word character. -/
def preBoundary (prev : Option Char) : List Char → Bool
  | [] => boundaryBefore prev
  | c :: rest => preBoundary (some c) rest

/-- First-seen order of a sequence of values: each value listed once, at the
position of its first occurrence. -/
def specFirstSeen (ips : List String) : List String :=
  ips.foldl (fun acc ip => if ip ∈ acc then acc else acc ++ [ip]) []

/-! ### Helper lemmas -/

theorem idMem_iff {i : String} {l : List FailureRecord} :
    idMem i l = true ↔ ∃ r ∈ l, r.id = i := by
  simp [idMem, List.any_eq_true]

theorem idMem_of_mem {r : FailureRecord} {l : List FailureRecord} (h : r ∈ l) :
    idMem r.id l = true :=
  idMem_iff.2 ⟨r, h, rfl⟩

theorem diffNew_append_diff (c l : List FailureRecord) :
    diffNew c (l ++ diffNew c l) = [] := by
  rw [diffNew, List.filter_eq_nil_iff]
  intro r hr
  simp only [Bool.not_eq_true', Bool.not_eq_false]
  by_cases h : idMem r.id l = true
  · rcases idMem_iff.1 h with ⟨e, he, hid⟩
    exact idMem_iff.2 ⟨e, List.mem_append_left _ he, hid⟩
  · have hmem : r ∈ diffNew c l :=
      List.mem_filter.2 ⟨hr, by simp [h]⟩
    exact idMem_iff.2 ⟨r, List.mem_append_right _ hmem, rfl⟩

theorem runPipeline_newEntries (parse : String → Option Int)
    (entries : List LogEntry) (ledger : List FailureRecord) :
    (runPipeline parse entries ledger).newEntries =
      diffNew (failedLogins entries) ledger := by
  by_cases h : (diffNew (failedLogins entries) ledger).isEmpty <;>
    simp [runPipeline, h]

theorem runPipeline_ledgerAfter (parse : String → Option Int)
    (entries : List LogEntry) (ledger : List FailureRecord) :
    (runPipeline parse entries ledger).ledgerAfter =
      ledger ++ diffNew (failedLogins entries) ledger := by
  by_cases h : (diffNew (failedLogins entries) ledger).isEmpty
  · have hnil : diffNew (failedLogins entries) ledger = [] := List.isEmpty_iff.1 h
    simp [runPipeline, h, hnil]
  · simp [runPipeline, h]

theorem runPipeline_report_of_ne {parse : String → Option Int}
    {entries : List LogEntry} {ledger : List FailureRecord}
    (h : diffNew (failedLogins entries) ledger ≠ []) :
    (runPipeline parse entries ledger).report =
      some (diffNew (failedLogins entries) ledger) := by
  have hne : (diffNew (failedLogins entries) ledger).isEmpty = false := by
    cases hh : (diffNew (failedLogins entries) ledger).isEmpty
    · rfl
    · exact absurd (List.isEmpty_iff.1 hh) h
  simp [runPipeline, hne]

theorem diffNew_countP (candidates ledger : List FailureRecord) (i : String)
    (hi : ∀ e ∈ ledger, e.id ≠ i) :
    List.countP (fun r => decide (r.id = i)) (diffNew candidates ledger) =
      List.countP (fun r => decide (r.id = i)) candidates := by
  induction candidates with
  | nil => rfl
  | cons a t ih =>
    rw [diffNew, List.filter_cons]
    cases hb : idMem a.id ledger with
    | true =>
      rcases idMem_iff.1 hb with ⟨e, he, hid⟩
      have hne : decide (a.id = i) = false := decide_eq_false (hid ▸ hi e he)
      rw [show (!true) = false from rfl, if_neg (by decide : ¬ (false = true)),
        ← diffNew, ih, List.countP_cons, hne]
      simp
    | false =>
      rw [show (!false) = true from rfl, if_pos rfl, List.countP_cons,
        List.countP_cons, ← diffNew, ih]

theorem runPipeline_of_empty (parse : String → Option Int)
    {entries : List LogEntry} {ledger : List FailureRecord}
    (h : diffNew (failedLogins entries) ledger = []) :
    runPipeline parse entries ledger =
      { newEntries := [], ledgerAfter := ledger,
        report := none, alertIps := none } := by
  simp [runPipeline, h]

/-- C1: for every family of per-IP attempt lists built from this run's new
records, an IP is flagged as brute-force if and only if it has a group whose
attempt list has size at least `BRUTE_FORCE_THRESHOLD` (2) and whose span,
maximum minus minimum timestamp, is at most the `BRUTE_FORCE_WINDOW` of 5
minutes (300 seconds), the boundary being inclusive because the comparison
is a non-strict one. -/
theorem brute_force_flag_iff (parse : String → Option Int)
    (rows : List FailureRecord) (ip : String) :
    ip ∈ bruteForceIps parse rows ↔
      ∃ times, (ip, times) ∈ ipAttempts parse rows ∧
        BRUTE_FORCE_THRESHOLD ≤ times.length ∧
        listMax times - listMin times ≤ 60 * BRUTE_FORCE_WINDOW := by
  constructor
  · intro h
    rcases List.mem_map.1 h with ⟨g, hg, rfl⟩
    rcases List.mem_filter.1 hg with ⟨hmem, hflag⟩
    simp only [flaggedGroup, Bool.and_eq_true, decide_eq_true_eq] at hflag
    exact ⟨g.2, hmem, hflag.1, hflag.2⟩
  · rintro ⟨times, hmem, h1, h2⟩
    exact List.mem_map.2 ⟨(ip, times),
      List.mem_filter.2 ⟨hmem, by simp [flaggedGroup, h1, h2]⟩, rfl⟩

/-- C2: running the pipeline a second time on the same fetched batch against
the ledger produced by the first run yields an empty diff, hence no new
entries, no report artifact and no alert artifact, and leaves the ledger
unchanged. -/
theorem pipeline_idempotent (parse : String → Option Int)
    (entries : List LogEntry) (ledger : List FailureRecord) :
    diffNew (failedLogins entries) (runPipeline parse entries ledger).ledgerAfter = [] ∧
    (runPipeline parse entries (runPipeline parse entries ledger).ledgerAfter).newEntries = [] ∧
    (runPipeline parse entries (runPipeline parse entries ledger).ledgerAfter).report = none ∧
    (runPipeline parse entries (runPipeline parse entries ledger).ledgerAfter).alertIps = none ∧
    (runPipeline parse entries (runPipeline parse entries ledger).ledgerAfter).ledgerAfter =
      (runPipeline parse entries ledger).ledgerAfter := by
  have key : diffNew (failedLogins entries) (runPipeline parse entries ledger).ledgerAfter = [] := by
    rw [runPipeline_ledgerAfter]
    exact diffNew_append_diff _ _
  have h2 := runPipeline_of_empty parse key
  exact ⟨key, by rw [h2], by rw [h2], by rw [h2], by rw [h2]⟩

/-- C3: the ledger diff keeps exactly the candidates whose identity is
absent from the loaded ledger, in candidate order (it is a sublist of the
candidates), and deduplicates only against ledger history: all candidate
occurrences of an identity that is not in the ledger are kept, duplicates
within the batch included. -/
theorem diff_semantics (candidates ledger : List FailureRecord) :
    List.Sublist (diffNew candidates ledger) candidates ∧
    (∀ r, r ∈ diffNew candidates ledger ↔
      r ∈ candidates ∧ ∀ e ∈ ledger, e.id ≠ r.id) ∧
    (∀ i, (∀ e ∈ ledger, e.id ≠ i) →
      List.countP (fun r => decide (r.id = i)) (diffNew candidates ledger) =
        List.countP (fun r => decide (r.id = i)) candidates) := by
  refine ⟨List.filter_sublist candidates, ?_, fun i hi => diffNew_countP candidates ledger i hi⟩
  intro r
  rw [diffNew, List.mem_filter]
  constructor
  · rintro ⟨hmem, hpred⟩
    refine ⟨hmem, fun e he hid => ?_⟩
    rw [Bool.not_eq_true'] at hpred
    exact absurd (idMem_iff.2 ⟨e, he, hid⟩) (by simp [hpred])
  · rintro ⟨hmem, habs⟩
    refine ⟨hmem, ?_⟩
    rw [Bool.not_eq_true']
    cases h : idMem r.id ledger
    · rfl
    · rcases idMem_iff.1 h with ⟨e, he, hid⟩
      exact absurd hid (habs e he)

/-- Witness for C3 at a concrete batch: two candidates sharing a fresh
identity are both kept by the diff. -/
theorem diff_semantics_witness :
    List.countP (fun r => decide (r.id = "t1|failed x"))
        (diffNew
          [⟨some "t1", some "failed x", some "sys", "t1|failed x"⟩,
           ⟨some "t1", some "failed x", some "wifi", "t1|failed x"⟩]
          [⟨some "t0", some "denied y", some "sys", "t0|denied y"⟩]) = 2 := by
  have h := (diff_semantics
    [⟨some "t1", some "failed x", some "sys", "t1|failed x"⟩,
     ⟨some "t1", some "failed x", some "wifi", "t1|failed x"⟩]
    [⟨some "t0", some "denied y", some "sys", "t0|denied y"⟩]).2.2
    "t1|failed x" (by decide)
  rw [h]
  decide

/-- C4 counterexample: interrupting the in-place rewrite after one row
leaves a ledger holding exactly one of the two new records, refuting
all-or-none atomicity of the append. -/
theorem append_crash_cex :
    (⟨some "t1", some "failed a", some "sys", "t1|failed a"⟩ : FailureRecord) ∈
      persistedAfterCrash []
        [⟨some "t1", some "failed a", some "sys", "t1|failed a"⟩,
         ⟨some "t2", some "failed b", some "sys", "t2|failed b"⟩] 1 ∧
    (⟨some "t2", some "failed b", some "sys", "t2|failed b"⟩ : FailureRecord) ∉
      persistedAfterCrash []
        [⟨some "t1", some "failed a", some "sys", "t1|failed a"⟩,
         ⟨some "t2", some "failed b", some "sys", "t2|failed b"⟩] 1 := by
  decide

/-- C4 amended: the append is a sequential in-place rewrite of the whole
file, so after an interruption the persisted ledger is some leading portion
of the old records followed by the new ones - a sublist that can contain
strictly between zero and N of the new records - while an uninterrupted
write persists exactly the old records followed by all N new records. -/
theorem append_crash_semantics (oldRecords newRecords : List FailureRecord) (k : Nat) :
    persistedAfterCrash oldRecords newRecords k =
      (oldRecords ++ newRecords).take k ∧
    List.Sublist (persistedAfterCrash oldRecords newRecords k)
      (oldRecords ++ newRecords) ∧
    persistedAfterCrash oldRecords newRecords
        (oldRecords.length + newRecords.length) =
      oldRecords ++ newRecords := by
  refine ⟨rfl, List.take_sublist k _, ?_⟩
  rw [persistedAfterCrash, ← List.length_append, List.take_length]

/-- C10: a new record with any missing field - absent topics included, even
when the IP extracts and the timestamp parses - contributes nothing to the
brute-force grouping: inserting it anywhere among the rows leaves the
grouping unchanged. -/
theorem grouping_drops_incomplete (parse : String → Option Int)
    (pre post : List FailureRecord) (r : FailureRecord)
    (h : r.topics = none ∨ recIp r = none ∨ recTime parse r = none) :
    ipAttempts parse (pre ++ r :: post) = ipAttempts parse (pre ++ post) := by
  have hk : rowKept parse r = false := by
    rcases h with h | h | h <;> simp [rowKept, h]
  rw [ipAttempts, ipAttempts, List.filter_append, List.filter_append,
    List.filter_cons, hk]
  simp

/-- Witness for C10: a record with extractable IP and parseable timestamp
but absent topics is dropped from grouping. -/
theorem grouping_drops_incomplete_witness :
    (⟨some "t0", some "failed from 9.9.9.9", none, "t0|failed from 9.9.9.9"⟩ :
        FailureRecord).topics = none ∧
    ipAttempts (fun s => if s = "t0" then (some 0 : Option Int) else none)
        ([] ++ (⟨some "t0", some "failed from 9.9.9.9", none,
            "t0|failed from 9.9.9.9"⟩ : FailureRecord) ::
          [⟨some "t0", some "failed from 8.8.8.8", some "sys",
            "t0|failed from 8.8.8.8"⟩]) =
      ipAttempts (fun s => if s = "t0" then (some 0 : Option Int) else none)
        ([] ++ [⟨some "t0", some "failed from 8.8.8.8", some "sys",
          "t0|failed from 8.8.8.8"⟩]) :=
  ⟨rfl, grouping_drops_incomplete _ [] _ _ (Or.inl rfl)⟩

theorem isSubListAt_iff (needle l : List Char) :
    isSubListAt needle l = true ↔ ∃ q, l = needle ++ q := by
  induction needle generalizing l with
  | nil => exact ⟨fun _ => ⟨l, rfl⟩, fun _ => rfl⟩
  | cons a as ih =>
    cases l with
    | nil =>
      simp only [isSubListAt, List.cons_append]
      constructor
      · intro h; exact absurd h (by simp)
      · rintro ⟨q, hq⟩; exact absurd hq (by simp)
    | cons b bs =>
      rw [isSubListAt, Bool.and_eq_true, beq_iff_eq, ih]
      constructor
      · rintro ⟨rfl, q, rfl⟩; exact ⟨q, rfl⟩
      · rintro ⟨q, hq⟩
        rw [List.cons_append] at hq
        obtain ⟨rfl, rfl⟩ : a = b ∧ bs = as ++ q := by
          constructor
          · exact (List.cons.injEq _ _ _ _ ▸ hq).1.symm
          · exact (List.cons.injEq _ _ _ _ ▸ hq).2
        exact ⟨rfl, q, rfl⟩

theorem containsSeq_iff (hay needle : List Char) :
    containsSeq hay needle = true ↔ ∃ p q, hay = p ++ needle ++ q := by
  induction hay with
  | nil =>
    rw [containsSeq, List.isEmpty_iff]
    constructor
    · rintro rfl; exact ⟨[], [], rfl⟩
    · rintro ⟨p, q, hpq⟩
      rcases List.append_eq_nil.1 (List.append_eq_nil.1 hpq.symm).1 with ⟨-, h⟩
      exact h
  | cons c t ih =>
    rw [containsSeq, Bool.or_eq_true, isSubListAt_iff, ih]
    constructor
    · rintro (⟨q, hq⟩ | ⟨p, q, hpq⟩)
      · exact ⟨[], q, by simpa using hq⟩
      · exact ⟨c :: p, q, by simp [hpq]⟩
    · rintro ⟨p, q, hpq⟩
      cases p with
      | nil => exact Or.inl ⟨q, by simpa using hpq⟩
      | cons p0 ps =>
        rw [List.cons_append, List.cons_append] at hpq
        refine Or.inr ⟨ps, q, ?_⟩
        exact (List.cons.injEq _ _ _ _ ▸ hpq).2

theorem toRecord_inj {a b : LogEntry} (h : toRecord a = toRecord b) : a = b := by
  cases a; cases b
  simp only [toRecord, FailureRecord.mk.injEq] at h
  simp [h.1, h.2.1, h.2.2.1]

/-- C5: an entry contributes a failure record exactly when its lower-cased
message contains one of the failure keywords as a substring, and a
classified entry contributes exactly one record per occurrence in the batch
while unclassified entries never appear. -/
theorem classifier_characterization (entries : List LogEntry) (e : LogEntry) :
    (classifyFailure e = true ↔
      ∃ kw ∈ FAILURE_KEYWORDS, ∃ p q,
        (lowerString (e.message.getD "")).toList = p ++ kw.toList ++ q) ∧
    List.countP (fun r => decide (r = toRecord e)) (failedLogins entries) =
      if classifyFailure e then
        List.countP (fun x => decide (x = e)) entries
      else 0 := by
  constructor
  · rw [classifyFailure, List.any_eq_true]
    constructor
    · rintro ⟨kw, hkw, hc⟩
      exact ⟨kw, hkw, (containsSeq_iff _ _).1 hc⟩
    · rintro ⟨kw, hkw, hdecomp⟩
      exact ⟨kw, hkw, (containsSeq_iff _ _).2 hdecomp⟩
  · induction entries with
    | nil => cases h : classifyFailure e <;> simp [failedLogins]
    | cons a t ih =>
      rw [failedLogins, List.filter_cons]
      cases ha : classifyFailure a with
      | true =>
        rw [if_pos rfl, List.map_cons, List.countP_cons, ← failedLogins, ih,
          List.countP_cons]
        by_cases hae : a = e
        · subst hae
          simp [ha]
        · have h1 : decide (toRecord a = toRecord e) = false :=
            decide_eq_false (fun hc => hae (toRecord_inj hc))
          have h2 : decide (a = e) = false := decide_eq_false hae
          rw [h1, h2]
          cases he : classifyFailure e <;> simp
      | false =>
        rw [show (if (false = true) then a :: List.filter classifyFailure t
            else List.filter classifyFailure t) = List.filter classifyFailure t
          from if_neg (by decide), ← failedLogins, ih, List.countP_cons]
        cases he : classifyFailure e with
        | true =>
          have hae : decide (a = e) = false :=
            decide_eq_false (fun hc => by rw [hc, he] at ha; exact Bool.noConfusion ha)
          rw [hae]
          simp
        | false => rfl

/-- C6: a new record whose timestamp fails to parse is dropped by `dropna`
and so excluded from brute-force grouping, yet it is still appended to the
ledger and still rendered in the report artifact. -/
theorem parse_failure_still_persisted (parse : String → Option Int)
    (entries : List LogEntry) (ledger : List FailureRecord) (r : FailureRecord)
    (hmem : r ∈ (runPipeline parse entries ledger).newEntries)
    (hparse : recTime parse r = none) :
    r ∈ (runPipeline parse entries ledger).ledgerAfter ∧
    (runPipeline parse entries ledger).report =
      some ((runPipeline parse entries ledger).newEntries) ∧
    rowKept parse r = false ∧
    r ∉ ((runPipeline parse entries ledger).newEntries).filter (rowKept parse) := by
  rw [runPipeline_newEntries] at hmem
  have hne := List.ne_nil_of_mem hmem
  refine ⟨?_, ?_, ?_, ?_⟩
  · rw [runPipeline_ledgerAfter]
    exact List.mem_append_right _ hmem
  · rw [runPipeline_report_of_ne hne, runPipeline_newEntries]
  · simp [rowKept, hparse]
  · rw [runPipeline_newEntries]
    intro hcon
    have := (List.mem_filter.1 hcon).2
    rw [rowKept] at this
    simp [hparse] at this

/-- Witness for C6: a record with an unparseable timestamp is appended and
reported but not grouped. -/
theorem parse_failure_still_persisted_witness :
    ((⟨some "bad", some "failed from 7.7.7.7", some "sys",
        "bad|failed from 7.7.7.7"⟩ : FailureRecord) ∈
      (runPipeline (fun _ => none)
        [⟨some "bad", some "failed from 7.7.7.7", some "sys"⟩] []).newEntries ∧
      recTime (fun _ => none)
        (⟨some "bad", some "failed from 7.7.7.7", some "sys",
          "bad|failed from 7.7.7.7"⟩ : FailureRecord) = none) ∧
    ((⟨some "bad", some "failed from 7.7.7.7", some "sys",
        "bad|failed from 7.7.7.7"⟩ : FailureRecord) ∈
      (runPipeline (fun _ => none)
        [⟨some "bad", some "failed from 7.7.7.7", some "sys"⟩] []).ledgerAfter ∧
      (runPipeline (fun _ => none)
        [⟨some "bad", some "failed from 7.7.7.7", some "sys"⟩] []).report =
        some ((runPipeline (fun _ => none)
          [⟨some "bad", some "failed from 7.7.7.7", some "sys"⟩] []).newEntries) ∧
      rowKept (fun _ => none)
        (⟨some "bad", some "failed from 7.7.7.7", some "sys",
          "bad|failed from 7.7.7.7"⟩ : FailureRecord) = false ∧
      (⟨some "bad", some "failed from 7.7.7.7", some "sys",
        "bad|failed from 7.7.7.7"⟩ : FailureRecord) ∉
        ((runPipeline (fun _ => none)
          [⟨some "bad", some "failed from 7.7.7.7", some "sys"⟩] []).newEntries).filter
          (rowKept (fun _ => none))) :=
  ⟨⟨by decide, rfl⟩,
    parse_failure_still_persisted (fun _ => none)
      [⟨some "bad", some "failed from 7.7.7.7", some "sys"⟩] [] _ (by decide) rfl⟩

/-- C7 counterexample: starting from an empty ledger (which satisfies the
no-duplicate-identity invariant), a fetched batch containing the same entry
twice is kept twice by the diff, so the ledger after the run holds two
records with equal identity. -/
theorem ledger_invariant_cex :
    (ledgerIds ([] : List FailureRecord)).Nodup ∧
    ¬ (ledgerIds ((runPipeline (fun _ => none)
        [⟨some "t1", some "login failed", some "sys"⟩,
         ⟨some "t1", some "login failed", some "sys"⟩] []).ledgerAfter)).Nodup := by
  exact ⟨List.nodup_nil, by decide⟩

/-- C7 amended: the no-duplicate-identity invariant is preserved by a run
provided the run's classified candidates themselves carry pairwise-distinct
identities (the code deduplicates only against history, so a within-batch
duplicate identity violates the invariant, as the counterexample shows). -/
theorem ledger_invariant_preserved (parse : String → Option Int)
    (entries : List LogEntry) (ledger : List FailureRecord)
    (hled : (ledgerIds ledger).Nodup)
    (hbatch : (ledgerIds (failedLogins entries)).Nodup) :
    (ledgerIds ((runPipeline parse entries ledger).ledgerAfter)).Nodup := by
  rw [runPipeline_ledgerAfter, ledgerIds, List.map_append, List.nodup_append]
  refine ⟨hled, ?_, ?_⟩
  · have hsub : List.Sublist (diffNew (failedLogins entries) ledger)
        (failedLogins entries) := List.filter_sublist _
    exact hbatch.sublist (hsub.map _)
  · intro i hi1 hi2
    rcases List.mem_map.1 hi2 with ⟨r, hr, hri⟩
    have hpred := (List.mem_filter.1 hr).2
    rw [Bool.not_eq_true'] at hpred
    rcases List.mem_map.1 hi1 with ⟨e, he, hei⟩
    have : idMem r.id ledger = true := idMem_iff.2 ⟨e, he, by rw [hei, hri]⟩
    rw [hpred] at this
    exact Bool.noConfusion this

/-- Witness for C7 amended at a concrete run: distinct candidate identities
and a distinct-identity ledger yield a distinct-identity ledger. -/
theorem ledger_invariant_preserved_witness :
    ((ledgerIds [(⟨some "t0", some "denied z", some "sys", "t0|denied z"⟩ :
        FailureRecord)]).Nodup ∧
      (ledgerIds (failedLogins
        [⟨some "t1", some "login failed", some "sys"⟩,
         ⟨some "t2", some "login failed", some "sys"⟩])).Nodup) ∧
    (ledgerIds ((runPipeline (fun _ => none)
        [⟨some "t1", some "login failed", some "sys"⟩,
         ⟨some "t2", some "login failed", some "sys"⟩]
        [⟨some "t0", some "denied z", some "sys", "t0|denied z"⟩]).ledgerAfter)).Nodup :=
  ⟨⟨by decide, by decide⟩,
    ledger_invariant_preserved (fun _ => none)
      [⟨some "t1", some "login failed", some "sys"⟩,
       ⟨some "t2", some "login failed", some "sys"⟩]
      [⟨some "t0", some "denied z", some "sys", "t0|denied z"⟩]
      (by decide) (by decide)⟩

theorem keys_addAttempt (acc : List (String × List Int)) (ip : String) (t : Int) :
    (addAttempt acc ip t).map Prod.fst =
      if ip ∈ acc.map Prod.fst then acc.map Prod.fst
      else acc.map Prod.fst ++ [ip] := by
  induction acc with
  | nil => simp [addAttempt]
  | cons h rest ih =>
    obtain ⟨k, ts⟩ := h
    by_cases hk : k = ip
    · subst hk
      simp [addAttempt]
    · rw [addAttempt, if_neg hk]
      have hmemne : (ip ∈ (k, ts).fst :: rest.map Prod.fst) ↔ ip ∈ rest.map Prod.fst := by
        simp only [List.mem_cons]
        constructor
        · rintro (rfl | hm)
          · exact absurd rfl hk
          · exact hm
        · exact Or.inr
      by_cases hmem : ip ∈ rest.map Prod.fst
      · simp only [List.map_cons, ih, if_pos hmem]
        rw [if_pos (by simpa using hmemne.2 hmem)]
      · simp only [List.map_cons, ih, if_neg hmem]
        rw [if_neg (by simpa using fun hc => hmem (hmemne.1 hc)), List.cons_append]

theorem keys_fold (l : List (String × Int)) (acc : List (String × List Int)) :
    ((l.foldl (fun a p => addAttempt a p.1 p.2) acc).map Prod.fst) =
      (l.map Prod.fst).foldl
        (fun a ip => if ip ∈ a then a else a ++ [ip]) (acc.map Prod.fst) := by
  induction l generalizing acc with
  | nil => rfl
  | cons p l ih =>
    simp only [List.foldl_cons, List.map_cons]
    rw [ih, keys_addAttempt]

theorem kept_filterMap_ips (parse : String → Option Int) (l : List FailureRecord) :
    ((l.filter (rowKept parse)).filterMap (rowIpTime parse)).map Prod.fst =
      (l.filter (rowKept parse)).filterMap recIp := by
  induction l with
  | nil => rfl
  | cons r t ih =>
    rw [List.filter_cons]
    cases hk : rowKept parse r with
    | false => rw [if_neg (by decide), ih]
    | true =>
      have hk' := hk
      rw [rowKept, Bool.and_eq_true, Bool.and_eq_true] at hk'
      obtain ⟨⟨-, hip⟩, htm⟩ := hk'
      obtain ⟨ip, hip⟩ := Option.isSome_iff_exists.1 hip
      obtain ⟨tm, htm⟩ := Option.isSome_iff_exists.1 htm
      rw [if_pos rfl, List.filterMap_cons, List.filterMap_cons,
        show rowIpTime parse r = some (ip, tm) from by rw [rowIpTime, hip, htm],
        hip, List.map_cons, ih]

/-- C9 counterexample: IP 1.1.1.1 is first seen among the run's new records
before IP 2.2.2.2 (its first record has an unparseable timestamp), yet the
alert lists 2.2.2.2 first, because the emission order follows the rows
surviving `dropna()`, not all new records. -/
theorem alert_order_cex :
    (runPipeline
        (fun s => if s = "t0" then (some 0 : Option Int)
          else if s = "t1" then some 60 else if s = "t2" then some 120 else none)
        [⟨some "bad", some "failed from 1.1.1.1", some "system"⟩,
         ⟨some "t0", some "failed from 2.2.2.2", some "system"⟩,
         ⟨some "t1", some "failed from 2.2.2.2", some "system"⟩,
         ⟨some "t1", some "failed from 1.1.1.1", some "system"⟩,
         ⟨some "t2", some "failed from 1.1.1.1", some "system"⟩] []).alertIps =
      some ["2.2.2.2", "1.1.1.1"] ∧
    specFirstSeen (((runPipeline
        (fun s => if s = "t0" then (some 0 : Option Int)
          else if s = "t1" then some 60 else if s = "t2" then some 120 else none)
        [⟨some "bad", some "failed from 1.1.1.1", some "system"⟩,
         ⟨some "t0", some "failed from 2.2.2.2", some "system"⟩,
         ⟨some "t1", some "failed from 2.2.2.2", some "system"⟩,
         ⟨some "t1", some "failed from 1.1.1.1", some "system"⟩,
         ⟨some "t2", some "failed from 1.1.1.1", some "system"⟩] []).newEntries).filterMap
      recIp) = ["1.1.1.1", "2.2.2.2"] := by
  exact ⟨by decide, by decide⟩

/-- C9 amended: flagged IPs are emitted in the order of first appearance
among the rows that survive `dropna()` (stable insertion order of the
grouping keys, never sorted): the key sequence of the grouping equals the
first-seen order of the surviving rows' IPs, and the flagged list is a
sublist of that key sequence. -/
theorem alert_order_first_seen_kept (parse : String → Option Int)
    (rows : List FailureRecord) :
    (ipAttempts parse rows).map Prod.fst =
      specFirstSeen ((rows.filter (rowKept parse)).filterMap recIp) ∧
    List.Sublist (bruteForceIps parse rows) ((ipAttempts parse rows).map Prod.fst) := by
  constructor
  · rw [ipAttempts, keys_fold, specFirstSeen, kept_filterMap_ips]
    rfl
  · exact (List.filter_sublist _).map _

theorem dropWhile_head_not {p : Char → Bool} :
    ∀ (l : List Char) (c : Char) (r2 : List Char),
      l.dropWhile p = c :: r2 → p c = false := by
  intro l
  induction l with
  | nil => intro c r2 h; exact absurd h (by simp)
  | cons a t ih =>
    intro c r2 h
    rw [List.dropWhile_cons] at h
    by_cases ha : p a = true
    · rw [if_pos ha] at h
      exact ih c r2 h
    · rw [if_neg ha] at h
      obtain ⟨rfl, -⟩ : a = c ∧ t = r2 :=
        ⟨(List.cons.injEq _ _ _ _ ▸ h).1, (List.cons.injEq _ _ _ _ ▸ h).2⟩
      exact Bool.not_eq_true _ ▸ ha

theorem takeWhile_dropWhile_append {p : Char → Bool} :
    ∀ (xs ys : List Char), (∀ c ∈ xs, p c = true) →
      (∀ c r2, ys = c :: r2 → p c = false) →
      (xs ++ ys).takeWhile p = xs ∧ (xs ++ ys).dropWhile p = ys := by
  intro xs
  induction xs with
  | nil =>
    intro ys _ hy
    cases ys with
    | nil => exact ⟨rfl, rfl⟩
    | cons c rest =>
      have hc := hy c rest rfl
      rw [List.nil_append, List.takeWhile_cons, List.dropWhile_cons, hc]
      exact ⟨rfl, rfl⟩
  | cons x xs ih =>
    intro ys hx hy
    have hhead : p x = true := hx x (List.mem_cons_self x xs)
    obtain ⟨ht, hd⟩ := ih ys (fun c hc => hx c (List.mem_cons_of_mem x hc)) hy
    rw [List.cons_append, List.takeWhile_cons, List.dropWhile_cons, hhead]
    exact ⟨by rw [if_pos rfl, ht], by rw [if_pos rfl]; exact hd⟩

theorem digit_not_dot {c : Char} (h : c.isDigit = true) : c ≠ '.' := by
  intro hc
  subst hc
  exact absurd h (by decide)

theorem digit_isWord {c : Char} (h : c.isDigit = true) : isWordChar c = true := by
  simp [isWordChar, Char.isAlphanum, h]

theorem notWord_notDigit {c : Char} (h : isWordChar c = false) : c.isDigit = false := by
  cases hd : c.isDigit
  · rfl
  · rw [digit_isWord hd] at h
    exact Bool.noConfusion h

theorem octetGroup_iff {g : List Char} :
    octetGroup g = true ↔ 1 ≤ g.length ∧ g.length ≤ 3 ∧ ∀ c ∈ g, c.isDigit = true := by
  simp [octetGroup, List.all_eq_true, and_assoc]

theorem grabOctet_sound {l ds rest : List Char} (h : grabOctet l = some (ds, rest)) :
    l = ds ++ rest ∧ (∀ c ∈ ds, c.isDigit = true) ∧ 1 ≤ ds.length ∧ ds.length ≤ 3 ∧
      ∀ c r2, rest = c :: r2 → c.isDigit = false := by
  rw [grabOctet] at h
  by_cases hif : 1 ≤ (l.takeWhile Char.isDigit).length ∧ (l.takeWhile Char.isDigit).length ≤ 3
  · rw [if_pos hif] at h
    obtain ⟨rfl, rfl⟩ : l.takeWhile Char.isDigit = ds ∧ l.dropWhile Char.isDigit = rest := by
      have h' := Option.some.inj h
      exact ⟨(Prod.mk.injEq _ _ _ _ ▸ h').1, (Prod.mk.injEq _ _ _ _ ▸ h').2⟩
    exact ⟨(List.takeWhile_append_dropWhile _ _).symm,
      fun c hc => List.mem_takeWhile_imp hc, hif.1, hif.2,
      fun c r2 hr => dropWhile_head_not l c r2 hr⟩
  · rw [if_neg hif] at h
    exact Option.noConfusion h

theorem grabOctet_complete {ds rest : List Char}
    (hall : ∀ c ∈ ds, c.isDigit = true) (h1 : 1 ≤ ds.length) (h3 : ds.length ≤ 3)
    (hhd : ∀ c r2, rest = c :: r2 → c.isDigit = false) :
    grabOctet (ds ++ rest) = some (ds, rest) := by
  obtain ⟨htake, hdrop⟩ := takeWhile_dropWhile_append ds rest hall hhd
  rw [grabOctet]
  rw [show (ds ++ rest).takeWhile Char.isDigit = ds from htake,
    show (ds ++ rest).dropWhile Char.isDigit = rest from hdrop,
    if_pos ⟨h1, h3⟩]

theorem splitDots_ne_nil : ∀ l : List Char, splitDots l ≠ [] := by
  intro l
  induction l with
  | nil => simp [splitDots]
  | cons c t ih =>
    by_cases hc : c = '.'
    · simp [splitDots, hc]
    · rw [splitDots, if_neg hc]
      cases hsr : splitDots t with
      | nil => simp
      | cons g gs => simp

theorem splitDots_no_dot : ∀ l : List Char, (∀ c ∈ l, c ≠ '.') → splitDots l = [l] := by
  intro l
  induction l with
  | nil => intro _; rfl
  | cons c t ih =>
    intro h
    rw [splitDots, if_neg (h c (List.mem_cons_self c t)),
      ih (fun d hd => h d (List.mem_cons_of_mem c hd))]

theorem splitDots_group : ∀ (g rest : List Char), (∀ c ∈ g, c ≠ '.') →
    splitDots (g ++ '.' :: rest) = g :: splitDots rest := by
  intro g
  induction g with
  | nil =>
    intro rest _
    rw [List.nil_append, splitDots, if_pos rfl]
  | cons c g' ih =>
    intro rest h
    rw [List.cons_append, splitDots, if_neg (h c (List.mem_cons_self c g')),
      ih rest (fun d hd => h d (List.mem_cons_of_mem c hd))]

theorem joinWithDot_splitDots : ∀ l : List Char, joinWithDot (splitDots l) = l := by
  intro l
  induction l with
  | nil => rfl
  | cons c t ih =>
    by_cases hc : c = '.'
    · subst hc
      rw [splitDots, if_pos rfl]
      cases hL : splitDots t with
      | nil => exact absurd hL (splitDots_ne_nil t)
      | cons g gs =>
        rw [show joinWithDot ([] :: g :: gs) = '.' :: joinWithDot (g :: gs) from rfl,
          ← hL, ih]
    · rw [splitDots, if_neg hc]
      cases hL : splitDots t with
      | nil => exact absurd hL (splitDots_ne_nil t)
      | cons g gs =>
        cases gs with
        | nil =>
          rw [show joinWithDot [c :: g] = c :: g from rfl]
          have : joinWithDot [g] = t := by rw [← hL, ih]
          rw [show joinWithDot [g] = g from rfl] at this
          rw [this]
        | cons g2 gs2 =>
          rw [show joinWithDot ((c :: g) :: g2 :: gs2) =
              (c :: g) ++ '.' :: joinWithDot (g2 :: gs2) from rfl]
          have : joinWithDot (g :: g2 :: gs2) = t := by rw [← hL, ih]
          rw [show joinWithDot (g :: g2 :: gs2) = g ++ '.' :: joinWithDot (g2 :: gs2) from rfl] at this
          rw [List.cons_append, this]

theorem isDottedQuad_decomp (q : List Char) :
    isDottedQuad q = true ↔
      ∃ d1 d2 d3 d4, q = d1 ++ '.' :: (d2 ++ '.' :: (d3 ++ '.' :: d4)) ∧
        octetGroup d1 = true ∧ octetGroup d2 = true ∧
        octetGroup d3 = true ∧ octetGroup d4 = true := by
  constructor
  · intro h
    rw [isDottedQuad, Bool.and_eq_true, beq_iff_eq] at h
    obtain ⟨hlen, hall⟩ := h
    have hall' := List.all_eq_true.1 hall
    cases hq : splitDots q with
    | nil => exact absurd hq (splitDots_ne_nil q)
    | cons g1 L1 =>
      cases L1 with
      | nil => rw [hq] at hlen; exact absurd hlen (by simp)
      | cons g2 L2 =>
        cases L2 with
        | nil => rw [hq] at hlen; exact absurd hlen (by simp)
        | cons g3 L3 =>
          cases L3 with
          | nil => rw [hq] at hlen; exact absurd hlen (by simp)
          | cons g4 L4 =>
            cases L4 with
            | cons g5 L5 => rw [hq] at hlen; exact absurd hlen (by simp)
            | nil =>
              refine ⟨g1, g2, g3, g4, ?_, ?_, ?_, ?_, ?_⟩
              · have := joinWithDot_splitDots q
                rw [hq] at this
                rw [← this]
                rfl
              all_goals
                exact hall' _ (by rw [hq]; simp)
  · rintro ⟨d1, d2, d3, d4, rfl, h1, h2, h3, h4⟩
    have nd : ∀ {g : List Char}, octetGroup g = true → ∀ c ∈ g, c ≠ '.' :=
      fun hg c hc => digit_not_dot ((octetGroup_iff.1 hg).2.2 c hc)
    rw [isDottedQuad, splitDots_group d1 _ (nd h1)]
    rw [splitDots_group d2 _ (nd h2), splitDots_group d3 _ (nd h3),
      splitDots_no_dot d4 (nd h4)]
    simp [h1, h2, h3, h4]

theorem grabDot_dot (rest : List Char) : grabDot ('.' :: rest) = some rest := by
  rw [grabDot, if_pos rfl]

theorem grabDot_sound {l r : List Char} (h : grabDot l = some r) : l = '.' :: r := by
  cases l with
  | nil => exact Option.noConfusion h
  | cons c t =>
    rw [grabDot] at h
    by_cases hc : c = '.'
    · rw [if_pos hc] at h
      rw [hc, Option.some.inj h]
    · rw [if_neg hc] at h
      exact Option.noConfusion h

theorem matchQuadAt_sound {l m : List Char} (h : matchQuadAt l = some m) :
    ∃ rest, l = m ++ rest ∧ isDottedQuad m = true ∧ boundaryAfter rest = true := by
  rw [matchQuadAt] at h
  split at h
  · exact Option.noConfusion h
  rename_i d1 r1 h1
  split at h
  · exact Option.noConfusion h
  rename_i r2 h2
  split at h
  · exact Option.noConfusion h
  rename_i d2 r3 h3
  split at h
  · exact Option.noConfusion h
  rename_i r4 h4
  split at h
  · exact Option.noConfusion h
  rename_i d3 r5 h5
  split at h
  · exact Option.noConfusion h
  rename_i r6 h6
  split at h
  · exact Option.noConfusion h
  rename_i d4 r7 h7
  split at h
  · rename_i hba
    obtain rfl : d1 ++ '.' :: (d2 ++ '.' :: (d3 ++ '.' :: d4)) = m := Option.some.inj h
    obtain ⟨hl1, hg1, h1a, h1b, -⟩ := grabOctet_sound h1
    have hr1 := grabDot_sound h2
    obtain ⟨hl2, hg2, h2a, h2b, -⟩ := grabOctet_sound h3
    have hr3 := grabDot_sound h4
    obtain ⟨hl3, hg3, h3a, h3b, -⟩ := grabOctet_sound h5
    have hr5 := grabDot_sound h6
    obtain ⟨hl4, hg4, h4a, h4b, -⟩ := grabOctet_sound h7
    refine ⟨r7, ?_, ?_, hba⟩
    · rw [hl1, hr1, hl2, hr3, hl3, hr5, hl4]
      simp [List.append_assoc]
    · exact (isDottedQuad_decomp _).2 ⟨d1, d2, d3, d4, rfl,
        octetGroup_iff.2 ⟨h1a, h1b, hg1⟩, octetGroup_iff.2 ⟨h2a, h2b, hg2⟩,
        octetGroup_iff.2 ⟨h3a, h3b, hg3⟩, octetGroup_iff.2 ⟨h4a, h4b, hg4⟩⟩
  · exact Option.noConfusion h

theorem matchQuadAt_complete {q rest : List Char} (hq : isDottedQuad q = true)
    (hba : boundaryAfter rest = true) : matchQuadAt (q ++ rest) = some q := by
  obtain ⟨d1, d2, d3, d4, rfl, h1, h2, h3, h4⟩ := (isDottedQuad_decomp q).1 hq
  obtain ⟨h1a, h1b, h1c⟩ := octetGroup_iff.1 h1
  obtain ⟨h2a, h2b, h2c⟩ := octetGroup_iff.1 h2
  obtain ⟨h3a, h3b, h3c⟩ := octetGroup_iff.1 h3
  obtain ⟨h4a, h4b, h4c⟩ := octetGroup_iff.1 h4
  have hdot : ∀ (X : List Char) (c : Char) (r2 : List Char),
      '.' :: X = c :: r2 → c.isDigit = false := by
    intro X c r2 hh
    have hc : ('.' : Char) = c := (List.cons.injEq _ _ _ _ ▸ hh).1
    rw [← hc]
    decide
  have hrest : ∀ (c : Char) (r2 : List Char), rest = c :: r2 → c.isDigit = false := by
    intro c r2 hh
    subst hh
    have hw : isWordChar c = false := by
      rw [boundaryAfter] at hba
      exact Bool.not_eq_true' .. ▸ hba
    exact notWord_notDigit hw
  have key : (d1 ++ '.' :: (d2 ++ '.' :: (d3 ++ '.' :: d4))) ++ rest =
      d1 ++ '.' :: (d2 ++ '.' :: (d3 ++ '.' :: (d4 ++ rest))) := by
    simp [List.append_assoc]
  have g1 := @grabOctet_complete d1 ('.' :: (d2 ++ '.' :: (d3 ++ '.' :: (d4 ++ rest))))
    h1c h1a h1b (hdot _)
  have g2 := @grabOctet_complete d2 ('.' :: (d3 ++ '.' :: (d4 ++ rest)))
    h2c h2a h2b (hdot _)
  have g3 := @grabOctet_complete d3 ('.' :: (d4 ++ rest)) h3c h3a h3b (hdot _)
  have g4 := @grabOctet_complete d4 rest h4c h4a h4b hrest
  rw [key, matchQuadAt]
  simp only [g1, g2, g3, g4, grabDot_dot, hba, if_true]

theorem preBoundary_cons (prev : Option Char) (c : Char) (l : List Char) :
    preBoundary prev (c :: l) = preBoundary (some c) l := rfl

theorem isDottedQuad_ne_nil {q : List Char} (h : isDottedQuad q = true) : q ≠ [] := by
  intro hq
  subst hq
  exact absurd h (by decide)

theorem scanQuad_sound : ∀ (l : List Char) (prev : Option Char) (m : List Char),
    scanQuad prev l = some m →
    ∃ pre post, l = pre ++ m ++ post ∧ isDottedQuad m = true ∧
      boundaryAfter post = true ∧ preBoundary prev pre = true ∧
      ∀ pre' q' post', l = pre' ++ q' ++ post' → isDottedQuad q' = true →
        boundaryAfter post' = true → preBoundary prev pre' = true →
        pre.length ≤ pre'.length := by
  intro l
  induction l with
  | nil =>
    intro prev m h
    exact Option.noConfusion h
  | cons c rest ih =>
    intro prev m h
    rw [scanQuad] at h
    by_cases hb : boundaryBefore prev = true
    · rw [if_pos hb] at h
      cases hm : matchQuadAt (c :: rest) with
      | some m0 =>
        rw [hm] at h
        obtain rfl : m0 = m := Option.some.inj h
        obtain ⟨post, heq, hq, hba⟩ := matchQuadAt_sound hm
        refine ⟨[], post, by rw [List.nil_append, heq], hq, hba, hb, ?_⟩
        intro pre' q' post' _ _ _ _
        exact Nat.zero_le _
      | none =>
        rw [hm] at h
        have h' : scanQuad (some c) rest = some m := h
        obtain ⟨pre1, post1, heq, hq, hba, hpb, hmin⟩ := ih (some c) m h'
        refine ⟨c :: pre1, post1, by rw [List.cons_append, List.cons_append, heq],
          hq, hba, by rw [preBoundary_cons]; exact hpb, ?_⟩
        intro pre' q' post' heq' hq' hba' hpb'
        cases pre' with
        | nil =>
          exfalso
          rw [List.nil_append] at heq'
          have hcontra := matchQuadAt_complete hq' hba'
          rw [← heq', hm] at hcontra
          exact Option.noConfusion hcontra
        | cons c' pre1' =>
          rw [List.cons_append, List.cons_append] at heq'
          have hcc : c = c' := (List.cons.injEq _ _ _ _ ▸ heq').1
          have hrest : rest = pre1' ++ q' ++ post' := (List.cons.injEq _ _ _ _ ▸ heq').2
          subst hcc
          rw [preBoundary_cons] at hpb'
          exact Nat.succ_le_succ (hmin pre1' q' post' hrest hq' hba' hpb')
    · rw [if_neg hb] at h
      have h' : scanQuad (some c) rest = some m := h
      obtain ⟨pre1, post1, heq, hq, hba, hpb, hmin⟩ := ih (some c) m h'
      refine ⟨c :: pre1, post1, by rw [List.cons_append, List.cons_append, heq],
        hq, hba, by rw [preBoundary_cons]; exact hpb, ?_⟩
      intro pre' q' post' heq' hq' hba' hpb'
      cases pre' with
      | nil =>
        exfalso
        exact hb hpb'
      | cons c' pre1' =>
        rw [List.cons_append, List.cons_append] at heq'
        have hcc : c = c' := (List.cons.injEq _ _ _ _ ▸ heq').1
        have hrest : rest = pre1' ++ q' ++ post' := (List.cons.injEq _ _ _ _ ▸ heq').2
        subst hcc
        rw [preBoundary_cons] at hpb'
        exact Nat.succ_le_succ (hmin pre1' q' post' hrest hq' hba' hpb')

theorem scanQuad_complete : ∀ (pre : List Char) (prev : Option Char) (q post : List Char),
    isDottedQuad q = true → boundaryAfter post = true → preBoundary prev pre = true →
    (scanQuad prev (pre ++ q ++ post)).isSome = true := by
  intro pre
  induction pre with
  | nil =>
    intro prev q post hq hba hpb
    have hb : boundaryBefore prev = true := hpb
    cases hqc : q with
    | nil => exact absurd hqc (isDottedQuad_ne_nil hq)
    | cons a q' =>
      subst hqc
      rw [List.nil_append, List.cons_append, scanQuad, if_pos hb,
        show matchQuadAt (a :: (q' ++ post)) = some (a :: q') from by
          rw [← List.cons_append]; exact matchQuadAt_complete hq hba]
      rfl
  | cons c pre1 ih =>
    intro prev q post hq hba hpb
    rw [preBoundary_cons] at hpb
    rw [List.cons_append, List.cons_append, scanQuad]
    by_cases hb : boundaryBefore prev = true
    · rw [if_pos hb]
      cases hm : matchQuadAt (c :: (pre1 ++ q ++ post)) with
      | some m0 => rfl
      | none => exact ih (some c) q post hq hba hpb
    · rw [if_neg hb]
      exact ih (some c) q post hq hba hpb

/-- C8 counterexample: the message consists of the character 1 followed by
the dotted-quad substring 234.5.6.7, so a substring matching four groups of
one to three digits separated by periods exists, yet the extractor returns
no match, because the regex requires a word boundary before the first digit
group. -/
theorem extract_ip_cex :
    extract_ip "1234.5.6.7" = none ∧
    isDottedQuad (String.toList "234.5.6.7") = true ∧
    String.toList "1234.5.6.7" = ['1'] ++ String.toList "234.5.6.7" ++ [] := by
  exact ⟨by decide, by decide, by decide⟩

/-- C8 amended: the extractor succeeds exactly when the message contains a
dotted-quad substring of four 1-3 digit groups that is delimited by word
boundaries (not preceded and not followed by a letter, digit or
underscore), and it then returns such a word-bounded dotted-quad occurring
at the leftmost possible position; with no such substring it returns no
match, and the record is then excluded from grouping. -/
theorem extract_ip_word_bounded (s : String) :
    ((extract_ip s).isSome = true ↔
      ∃ pre q post, s.toList = pre ++ q ++ post ∧ isDottedQuad q = true ∧
        preBoundary none pre = true ∧ boundaryAfter post = true) ∧
    (∀ m, extract_ip s = some m →
      ∃ pre post, s.toList = pre ++ m.toList ++ post ∧ isDottedQuad m.toList = true ∧
        preBoundary none pre = true ∧ boundaryAfter post = true ∧
        ∀ pre' q' post', s.toList = pre' ++ q' ++ post' → isDottedQuad q' = true →
          preBoundary none pre' = true → boundaryAfter post' = true →
          pre.length ≤ pre'.length) := by
  constructor
  · constructor
    · intro h
      cases hs : scanQuad none s.toList with
      | none => rw [extract_ip, hs] at h; exact Bool.noConfusion h
      | some l =>
        obtain ⟨pre, post, heq, hq, hba, hpb, -⟩ := scanQuad_sound s.toList none l hs
        exact ⟨pre, l, post, heq, hq, hpb, hba⟩
    · rintro ⟨pre, q, post, heq, hq, hpb, hba⟩
      have hsome := scanQuad_complete pre none q post hq hba hpb
      rw [← heq] at hsome
      rw [extract_ip]
      cases hs : scanQuad none s.toList with
      | none => rw [hs] at hsome; exact Bool.noConfusion hsome
      | some l => rfl
  · intro m hm
    rw [extract_ip] at hm
    cases hs : scanQuad none s.toList with
    | none => rw [hs] at hm; exact Option.noConfusion hm
    | some l =>
      rw [hs] at hm
      obtain rfl : String.mk l = m := Option.some.inj hm
      obtain ⟨pre, post, heq, hq, hba, hpb, hmin⟩ := scanQuad_sound s.toList none l hs
      exact ⟨pre, post, heq, hq, hpb, hba,
        fun pre' q' post' a b c d => hmin pre' q' post' a b d c⟩

/-- Witness for C8 amended: on a concrete message the extractor returns a
word-bounded dotted-quad at the leftmost position. -/
theorem extract_ip_word_bounded_witness :
    ∃ pre post,
      String.toList "failed from 10.0.0.5 x" =
        pre ++ (String.toList "10.0.0.5") ++ post ∧
      isDottedQuad (String.toList "10.0.0.5") = true ∧
      preBoundary none pre = true ∧ boundaryAfter post = true ∧
      ∀ pre' q' post',
        String.toList "failed from 10.0.0.5 x" = pre' ++ q' ++ post' →
        isDottedQuad q' = true → preBoundary none pre' = true →
        boundaryAfter post' = true → pre.length ≤ pre'.length :=
  (extract_ip_word_bounded "failed from 10.0.0.5 x").2 "10.0.0.5" (by decide)
